import Mathlib

/-!
Verification development for the signal-forwarder bot (bot.py).

The embedding models the pure text-processing pipeline of bot.py:
the function process_message (keyword check plus three regex
substitutions rewriting the cancellation phrase into a close command)
and the message handler that decides whether a message is forwarded.
Text is modeled as List Char; the three regular expressions are
modeled as explicit position-wise matchers driven by a fuel-indexed
scanner that mirrors the semantics of re.sub (leftmost,
non-overlapping matches, case-insensitive via ASCII lower-casing).
-/

namespace Bot

/-- Character class of a decimal-value character: an ASCII digit or a dot.
These are the characters that may occur in entry, target and stop-loss
values. -/
def isDecChar (c : Char) : Bool :=
  decide ((48 ≤ c.toNat ∧ c.toNat ≤ 57) ∨ c.toNat = 46)

/-- Whitespace as matched by the regex class backslash-s, ASCII portion
(space, tab, newline, carriage return, vertical tab, form feed). -/
def isWS (c : Char) : Bool :=
  decide (c.toNat = 32 ∨ c.toNat = 9 ∨ c.toNat = 10 ∨ c.toNat = 13 ∨
    c.toNat = 11 ∨ c.toNat = 12)

/-- The character class written as A to Z or 0 to 9 in the patterns,
matched under the IGNORECASE flag, hence also lower-case letters. -/
def isAlnumCI (c : Char) : Bool :=
  decide ((65 ≤ c.toNat ∧ c.toNat ≤ 90) ∨ (97 ≤ c.toNat ∧ c.toNat ≤ 122) ∨
    (48 ≤ c.toNat ∧ c.toNat ≤ 57))

/-- ASCII lower-casing of one character, as done by str.lower on ASCII
input and by IGNORECASE matching. -/
def lc (c : Char) : Char :=
  if 65 ≤ c.toNat ∧ c.toNat ≤ 90 then Char.ofNat (c.toNat + 32) else c

/-- Case-insensitive literal matcher: if the lower-casing of a prefix of
the text equals the (lower-case) pattern, return that consumed prefix
together with the rest of the text. -/
def litCI : List Char → List Char → Option (List Char × List Char)
  | [], t => some ([], t)
  | _ :: _, [] => none
  | p :: ps, c :: cs =>
    if lc c = p then
      match litCI ps cs with
      | some (u, r) => some (c :: u, r)
      | none => none
    else none

/-- The group of pattern 1, written hash-question-mark followed by one or
more alphanumerics: an optional leading hash mark, then a nonempty
alphanumeric run.  Returns the captured group and the rest. -/
def grpParse : List Char → Option (List Char × List Char)
  | '#' :: r2 =>
    if r2.takeWhile isAlnumCI = [] then none
    else some ('#' :: r2.takeWhile isAlnumCI, r2.dropWhile isAlnumCI)
  | r =>
    if r.takeWhile isAlnumCI = [] then none
    else some (r.takeWhile isAlnumCI, r.dropWhile isAlnumCI)

def manuallyL : List Char := "manually".toList

def cancelledL : List Char := "cancelled".toList

def closeLowL : List Char := "/close".toList

def closeSpL : List Char := "/Close ".toList

def closeHashL : List Char := "/Close #".toList

def leverageL : List Char := "leverage".toList

/-- Position-wise matcher of pattern 1 of process_message, the regex
Manually backslash-s-plus Cancelled backslash-s-plus group, under
IGNORECASE.  On success returns the matched text and its replacement,
slash-Close space group. -/
def matcher1 (t : List Char) : Option (List Char × List Char) :=
  match litCI manuallyL t with
  | none => none
  | some (u1, r1) =>
    if r1.takeWhile isWS = [] then none else
    match litCI cancelledL (r1.dropWhile isWS) with
    | none => none
    | some (u2, r3) =>
      if r3.takeWhile isWS = [] then none else
      match grpParse (r3.dropWhile isWS) with
      | none => none
      | some (g, _) =>
        some (u1 ++ r1.takeWhile isWS ++ u2 ++ r3.takeWhile isWS ++ g,
          closeSpL ++ g)

/-- Position-wise matcher of pattern 2 of process_message, the regex
hash-alnum-run backslash-s-plus Manually backslash-s-plus Cancelled under
IGNORECASE, replaced by slash-Close space group. -/
def matcher2 (t : List Char) : Option (List Char × List Char) :=
  match t with
  | '#' :: r1 =>
    if r1.takeWhile isAlnumCI = [] then none else
    if (r1.dropWhile isAlnumCI).takeWhile isWS = [] then none else
    match litCI manuallyL ((r1.dropWhile isAlnumCI).dropWhile isWS) with
    | none => none
    | some (u2, r4) =>
      if r4.takeWhile isWS = [] then none else
      match litCI cancelledL (r4.dropWhile isWS) with
      | none => none
      | some (u3, _) =>
        some ('#' :: r1.takeWhile isAlnumCI ++
            (r1.dropWhile isAlnumCI).takeWhile isWS ++ u2 ++
            r4.takeWhile isWS ++ u3,
          closeSpL ++ '#' :: r1.takeWhile isAlnumCI)
  | _ => none

/-- Position-wise matcher of the substitution pattern of step 3 of
process_message, the regex slash-Close backslash-s-plus
negative-lookahead-hash alnum-run under IGNORECASE, replaced by
slash-Close space hash run. -/
def matcher3 (t : List Char) : Option (List Char × List Char) :=
  match litCI closeLowL t with
  | none => none
  | some (u1, r1) =>
    if r1.takeWhile isWS = [] then none else
    if (r1.dropWhile isWS).head? = some '#' then none else
    if (r1.dropWhile isWS).takeWhile isAlnumCI = [] then none
    else some (u1 ++ r1.takeWhile isWS ++
        (r1.dropWhile isWS).takeWhile isAlnumCI,
      closeHashL ++ (r1.dropWhile isWS).takeWhile isAlnumCI)

/-- Position-wise test of the guard pattern of step 3 of process_message,
the regex slash-Close backslash-s-plus alnum-run negative-lookahead-hash:
after a maximal alphanumeric run, the lookahead succeeds directly when the
next character is not a hash mark, and through backtracking by one
character when it is, provided the run has length at least two. -/
def guard3At (t : List Char) : Bool :=
  match litCI closeLowL t with
  | none => false
  | some (_, r1) =>
    if r1.takeWhile isWS = [] then false else
    if (r1.dropWhile isWS).takeWhile isAlnumCI = [] then false
    else
      match (((r1.dropWhile isWS).dropWhile isAlnumCI)).head? with
      | some '#' => decide (2 ≤ ((r1.dropWhile isWS).takeWhile isAlnumCI).length)
      | _ => true

/-- Whether the guard pattern of step 3 matches anywhere in the text,
modeling re.search. -/
def hasGuard3 : List Char → Bool
  | [] => false
  | c :: t => guard3At (c :: t) || hasGuard3 t

/-- Fuel-indexed scanner modeling re.sub for a position-wise matcher:
at each position, if the matcher succeeds, emit the replacement and
continue after the matched text; otherwise emit the character and move
one position right.  The fuel is always instantiated with the length of
the text, which suffices. -/
def scanF (m : List Char → Option (List Char × List Char)) :
    Nat → List Char → List Char
  | _, [] => []
  | 0, t => t
  | f + 1, c :: t =>
    match m (c :: t) with
    | some (md, rp) => rp ++ scanF m f (t.drop (md.length - 1))
    | none => c :: scanF m f t

/-- One full re.sub pass over the text for a position-wise matcher. -/
def scanSub (m : List Char → Option (List Char × List Char))
    (t : List Char) : List Char :=
  scanF m t.length t

/-- Nonempty-prefix test on character lists, used to define the substring
test that models the Python membership operator on strings. -/
def isPrefixL : List Char → List Char → Bool
  | [], _ => true
  | _ :: _, [] => false
  | a :: as, b :: bs => a = b && isPrefixL as bs

/-- Substring test: whether the pattern occurs contiguously in the text,
modeling the Python membership operator on strings. -/
def containsSub (pat : List Char) : List Char → Bool
  | [] => isPrefixL pat []
  | c :: t => isPrefixL pat (c :: t) || containsSub pat t

/-- The three chained substitutions of process_message: pattern 1, then
pattern 2, then, only when the guard pattern is found by re.search, the
substitution of step 3. -/
def cancelRewrite (t : List Char) : List Char :=
  if hasGuard3 (scanSub matcher2 (scanSub matcher1 t)) then
    scanSub matcher3 (scanSub matcher2 (scanSub matcher1 t))
  else scanSub matcher2 (scanSub matcher1 t)

/-- The keyword check of process_message: the lower-cased text contains
the substring leverage. -/
def hasLev (t : List Char) : Bool := containsSub leverageL (t.map lc)

/-- process_message of bot.py.  The argument none models a message whose
text attribute is None; the empty list models the empty string; both are
falsy in Python, so the function returns the pair of None and False for
them.  Otherwise it returns the rewritten text and the keyword flag. -/
def process_message : Option (List Char) → Option (List Char) × Bool
  | none => (none, false)
  | some t =>
    if t = [] then (none, false)
    else (some (cancelRewrite t), hasLev t)

/-- The message handler of bot.py, reduced to its decision: it calls
process_message, returns nothing when the keyword flag is false, and
otherwise forwards the processed text when that text is truthy. -/
def handler (mt : Option (List Char)) : Option (List Char) :=
  match process_message mt with
  | (pt, hl) =>
    if hl then
      match pt with
      | none => none
      | some p => if p = [] then none else some p
    else none

/-- A batch of incoming messages processed in order.  The handler of
bot.py keeps no state between messages, so the run is a plain map. -/
def runBatch (msgs : List (Option (List Char))) : List (Option (List Char)) :=
  msgs.map handler

/-- The first list is a prefix of the second. -/
def PrefixOf (s t : List Char) : Prop := ∃ v, t = s ++ v

/-- The first list is a suffix of the second. -/
def SuffixOf (s t : List Char) : Prop := ∃ u, t = u ++ s

/-- The first list occurs contiguously inside the second. -/
def SubstrOf (s t : List Char) : Prop := ∃ u v, t = u ++ s ++ v

/-- A decimal-value string: every character is a digit or a dot. -/
def DecStr (s : List Char) : Prop := ∀ c ∈ s, isDecChar c = true

theorem substrOf_append_left {s x : List Char} (y : List Char)
    (h : SubstrOf s x) : SubstrOf s (x ++ y) := by
  obtain ⟨u, v, rfl⟩ := h
  exact ⟨u, v ++ y, by simp⟩

theorem substrOf_append_right {s y : List Char} (x : List Char)
    (h : SubstrOf s y) : SubstrOf s (x ++ y) := by
  obtain ⟨u, v, rfl⟩ := h
  exact ⟨x ++ u, v, by simp⟩

theorem substrOf_of_suffixOf {s x : List Char} (h : SuffixOf s x) :
    SubstrOf s x := by
  obtain ⟨u, rfl⟩ := h
  exact ⟨u, [], by simp⟩

theorem mem_of_substrOf {s x : List Char} (h : SubstrOf s x) {c : Char}
    (hc : c ∈ s) : c ∈ x := by
  obtain ⟨u, v, rfl⟩ := h
  simp [hc]

theorem mem_of_suffixOf {s x : List Char} (h : SuffixOf s x) {c : Char}
    (hc : c ∈ s) : c ∈ x := by
  obtain ⟨u, rfl⟩ := h
  simp [hc]

theorem mem_of_prefixOf {s x : List Char} (h : PrefixOf s x) {c : Char}
    (hc : c ∈ s) : c ∈ x := by
  obtain ⟨v, rfl⟩ := h
  simp [hc]

/-- An occurrence inside an append splits: entirely inside the left part,
entirely inside the right part, or straddling the boundary with a
nonempty suffix of the left part glued to a nonempty prefix of the right
part. -/
theorem substrOf_append_split {s x y : List Char} (h : SubstrOf s (x ++ y)) :
    SubstrOf s x ∨ SubstrOf s y ∨
      ∃ s₁ s₂, s = s₁ ++ s₂ ∧ s₁ ≠ [] ∧ s₂ ≠ [] ∧
        SuffixOf s₁ x ∧ PrefixOf s₂ y := by
  obtain ⟨u, v, he⟩ := h
  rw [List.append_assoc] at he
  rcases List.append_eq_append_iff.mp he with ⟨a, _, hy⟩ | ⟨a, hx, hd⟩
  · refine Or.inr (Or.inl ⟨a, v, ?_⟩)
    rw [hy, List.append_assoc]
  · rcases List.append_eq_append_iff.mp hd with ⟨b, hc, _⟩ | ⟨b, hs, hy⟩
    · refine Or.inl ⟨u, b, ?_⟩
      rw [hx, hc, List.append_assoc]
    · rcases eq_or_ne a [] with rfl | ha
      · simp only [List.nil_append] at hs
        refine Or.inr (Or.inl ⟨[], v, ?_⟩)
        rw [hy, ← hs]
        simp
      · rcases eq_or_ne b [] with rfl | hb
        · simp only [List.append_nil] at hs
          refine Or.inl ⟨u, [], ?_⟩
          rw [hx, ← hs]
          simp
        · exact Or.inr (Or.inr ⟨a, b, hs, ha, hb, ⟨u, hx⟩, ⟨v, hy⟩⟩)

/-- A suffix of an append is a suffix of the right part, or it covers the
whole right part together with a nonempty suffix of the left part. -/
theorem suffixOf_append_split {s x y : List Char} (h : SuffixOf s (x ++ y)) :
    SuffixOf s y ∨ ∃ s₁, s = s₁ ++ y ∧ s₁ ≠ [] ∧ SuffixOf s₁ x := by
  obtain ⟨w, hw⟩ := h
  rcases List.append_eq_append_iff.mp hw with ⟨a, _, hy⟩ | ⟨a, hx, hs⟩
  · exact Or.inl ⟨a, hy⟩
  · rcases eq_or_ne a [] with rfl | ha
    · simp only [List.nil_append] at hs
      exact Or.inl ⟨[], by rw [← hs]; simp⟩
    · exact Or.inr ⟨a, hs, ha, ⟨w, hx⟩⟩

/-- An occurrence inside a cons is at the very front or inside the tail. -/
theorem substrOf_cons_split {s : List Char} {c : Char} {t : List Char}
    (h : SubstrOf s (c :: t)) : PrefixOf s (c :: t) ∨ SubstrOf s t := by
  obtain ⟨u, v, he⟩ := h
  cases u with
  | nil => exact Or.inl ⟨v, by simpa using he⟩
  | cons a u =>
    refine Or.inr ⟨u, v, ?_⟩
    simpa using congrArg List.tail he

theorem lc_eq_self_of_dec {c : Char} (h : isDecChar c = true) : lc c = c := by
  unfold lc
  rw [if_neg]
  simp only [isDecChar, decide_eq_true_eq] at h
  omega

theorem ws_not_dec {c : Char} (h : isWS c = true) : isDecChar c = false := by
  simp only [isWS, decide_eq_true_eq] at h
  simp only [isDecChar, decide_eq_false_iff_not]
  omega

theorem tw_ws_not_dec {r : List Char} :
    ∀ c ∈ r.takeWhile isWS, isDecChar c = false :=
  fun _ hc => ws_not_dec (List.mem_takeWhile_imp hc)

theorem suffixOf_append_extend {s y : List Char} (q : List Char)
    (h : SuffixOf s y) : SuffixOf s (q ++ y) := by
  obtain ⟨w, hw⟩ := h
  exact ⟨q ++ w, by rw [hw, List.append_assoc]⟩

/-- A nonempty decimal string occurring in an append whose left part has
no decimal character must occur in the right part. -/
theorem substr_strip_left {s x y : List Char} (hs : s ≠ []) (hdec : DecStr s)
    (hx : ∀ c ∈ x, isDecChar c = false) (h : SubstrOf s (x ++ y)) :
    SubstrOf s y := by
  rcases substrOf_append_split h with h1 | h1 | ⟨s₁, s₂, hsp, h1ne, _, hsuf, _⟩
  · obtain ⟨c, hc⟩ := List.exists_mem_of_ne_nil s hs
    have := hdec c hc
    have := hx c (mem_of_substrOf h1 hc)
    simp_all
  · exact h1
  · obtain ⟨c, hc⟩ := List.exists_mem_of_ne_nil s₁ h1ne
    have hcs : c ∈ s := by
      rw [hsp]
      exact List.mem_append_left _ hc
    have := hdec c hcs
    have := hx c (mem_of_suffixOf hsuf hc)
    simp_all

/-- A nonempty decimal string occurring in an append whose right part has
no decimal character must occur in the left part. -/
theorem substr_strip_right {s x y : List Char} (hs : s ≠ []) (hdec : DecStr s)
    (hy : ∀ c ∈ y, isDecChar c = false) (h : SubstrOf s (x ++ y)) :
    SubstrOf s x := by
  rcases substrOf_append_split h with h1 | h1 | ⟨s₁, s₂, hsp, _, h2ne, _, hpre⟩
  · exact h1
  · obtain ⟨c, hc⟩ := List.exists_mem_of_ne_nil s hs
    have := hdec c hc
    have := hy c (mem_of_substrOf h1 hc)
    simp_all
  · obtain ⟨c, hc⟩ := List.exists_mem_of_ne_nil s₂ h2ne
    have hcs : c ∈ s := by
      rw [hsp]
      exact List.mem_append_right _ hc
    have := hdec c hcs
    have := hy c (mem_of_prefixOf hpre hc)
    simp_all

/-- Soundness obligations on a position-wise matcher, sufficient for the
scanner to preserve every nonempty decimal substring: the matched text is
a prefix of the input, is nonempty, starts with a non-decimal character,
and every nonempty decimal substring or suffix of the matched text is
respectively a substring or suffix of the replacement. -/
def MOK (m : List Char → Option (List Char × List Char)) : Prop :=
  ∀ t md rp, m t = some (md, rp) →
    (∃ rest, t = md ++ rest) ∧ md ≠ [] ∧
    (∀ c, md.head? = some c → isDecChar c = false) ∧
    ∀ s, s ≠ [] → DecStr s →
      (SubstrOf s md → SubstrOf s rp) ∧ (SuffixOf s md → SuffixOf s rp)

/-- The shape shared by the three matchers: the matched text is a block
of non-decimal characters, then an alphanumeric run, then a possibly
empty block of non-decimal characters, and the replacement ends exactly
with the run. -/
theorem suffixOf_pres_shape {pre run suf q s : List Char}
    (hpreD : ∀ c ∈ pre, isDecChar c = false)
    (hsufD : ∀ c ∈ suf, isDecChar c = false)
    (hs : s ≠ []) (hdec : DecStr s)
    (h : SuffixOf s (pre ++ (run ++ suf))) : SuffixOf s (q ++ run) := by
  rcases eq_or_ne suf [] with rfl | hsuf
  · rw [List.append_nil] at h
    rcases suffixOf_append_split h with h1 | ⟨s₁, hsp, h1ne, hsx⟩
    · exact suffixOf_append_extend q h1
    · obtain ⟨c, hc⟩ := List.exists_mem_of_ne_nil s₁ h1ne
      have hcs : c ∈ s := by
        rw [hsp]
        exact List.mem_append_left _ hc
      have := hdec c hcs
      have := hpreD c (mem_of_suffixOf hsx hc)
      simp_all
  · rw [← List.append_assoc] at h
    rcases suffixOf_append_split h with h1 | ⟨s₁, hsp, _, _⟩
    · obtain ⟨c, hc⟩ := List.exists_mem_of_ne_nil s hs
      have := hdec c hc
      have := hsufD c (mem_of_suffixOf h1 hc)
      simp_all
    · obtain ⟨c, hc⟩ := List.exists_mem_of_ne_nil suf hsuf
      have hcs : c ∈ s := by
        rw [hsp]
        exact List.mem_append_right _ hc
      have := hdec c hcs
      have := hsufD c hc
      simp_all

/-- Any matcher of the shared shape satisfies the soundness
obligations. -/
theorem mkMOK (m : List Char → Option (List Char × List Char))
    (hsh : ∀ t md rp, m t = some (md, rp) →
      ∃ pre run suf q rest, md = pre ++ (run ++ suf) ∧ rp = q ++ run ∧
        pre ≠ [] ∧ (∀ c ∈ pre, isDecChar c = false) ∧
        (∀ c ∈ suf, isDecChar c = false) ∧ t = md ++ rest) : MOK m := by
  intro t md rp h
  obtain ⟨pre, run, suf, q, rest, hmd, hrp, hpre, hpreD, hsufD, ht⟩ :=
    hsh _ _ _ h
  refine ⟨⟨rest, ht⟩, ?_, ?_, ?_⟩
  · rw [hmd]
    cases pre with
    | nil => exact absurd rfl hpre
    | cons p pr => simp
  · intro c hc
    cases pre with
    | nil => exact absurd rfl hpre
    | cons p pr =>
      rw [hmd] at hc
      simp only [List.cons_append, List.head?_cons, Option.some.injEq] at hc
      exact hc ▸ hpreD p (List.mem_cons_self p pr)
  · intro s hs hdec
    constructor
    · intro hsub
      rw [hmd] at hsub
      have h1 := substr_strip_left hs hdec hpreD hsub
      have h2 := substr_strip_right hs hdec hsufD h1
      rw [hrp]
      exact substrOf_append_right q h2
    · intro hsuf
      rw [hmd] at hsuf
      rw [hrp]
      exact suffixOf_pres_shape hpreD hsufD hs hdec hsuf

/-- Characterization of the case-insensitive literal matcher: the
consumed prefix reassembles the input, has the length of the pattern,
and lower-cases pointwise into the pattern. -/
theorem litCI_eq {ps : List Char} : ∀ {t u r : List Char},
    litCI ps t = some (u, r) →
    t = u ++ r ∧ u.length = ps.length ∧ ∀ c ∈ u, lc c ∈ ps := by
  induction ps with
  | nil =>
    intro t u r h
    simp only [litCI, Option.some.injEq, Prod.mk.injEq] at h
    obtain ⟨rfl, rfl⟩ := h
    simp
  | cons p ps ih =>
    intro t u r h
    cases t with
    | nil => simp [litCI] at h
    | cons c cs =>
      simp only [litCI] at h
      split at h
      · split at h
        · rename_i u' r' heq
          simp only [Option.some.injEq, Prod.mk.injEq] at h
          obtain ⟨rfl, rfl⟩ := h
          obtain ⟨he, hl, hm⟩ := ih heq
          refine ⟨by rw [he]; rfl, by simp [hl], ?_⟩
          intro d hd
          rcases List.mem_cons.mp hd with rfl | hd
          · simp_all
          · exact List.mem_cons_of_mem p (hm d hd)
        · exact absurd h (by simp)
      · exact absurd h (by simp)

/-- If every character of the pattern is non-decimal, so is every
character consumed by the case-insensitive literal matcher. -/
theorem litCI_not_dec {ps t u r : List Char}
    (hps : ∀ p ∈ ps, isDecChar p = false)
    (h : litCI ps t = some (u, r)) : ∀ c ∈ u, isDecChar c = false := by
  intro c hc
  cases hb : isDecChar c with
  | false => rfl
  | true =>
    have hlc := (litCI_eq h).2.2 c hc
    rw [lc_eq_self_of_dec hb] at hlc
    have := hps c hlc
    simp_all

/-- The consumed prefix of the literal matcher is nonempty for a
nonempty pattern. -/
theorem litCI_ne_nil {p : Char} {ps t u r : List Char}
    (h : litCI (p :: ps) t = some (u, r)) : u ≠ [] := by
  have := (litCI_eq h).2.1
  intro hu
  rw [hu] at this
  simp at this

/-- Characterization of the group parser of pattern 1: the group is an
optional hash mark followed by a nonempty alphanumeric run, and the
group and the rest reassemble the input. -/
theorem grpParse_eq {r g rest : List Char} (h : grpParse r = some (g, rest)) :
    ∃ h0 run, g = h0 ++ run ∧ (h0 = [] ∨ h0 = ['#']) ∧ run ≠ [] ∧
      r = g ++ rest := by
  unfold grpParse at h
  split at h
  · rename_i r2
    split at h
    · exact absurd h (by simp)
    · rename_i hne
      simp only [Option.some.injEq, Prod.mk.injEq] at h
      obtain ⟨rfl, rfl⟩ := h
      exact ⟨['#'], r2.takeWhile isAlnumCI, rfl, Or.inr rfl, hne, by
        simp [List.takeWhile_append_dropWhile]⟩
  · split at h
    · exact absurd h (by simp)
    · rename_i hne
      simp only [Option.some.injEq, Prod.mk.injEq] at h
      obtain ⟨rfl, rfl⟩ := h
      exact ⟨[], _, by simp, Or.inl rfl, hne, by
        simp [List.takeWhile_append_dropWhile]⟩

theorem manuallyL_not_dec : ∀ p ∈ manuallyL, isDecChar p = false := by decide

theorem cancelledL_not_dec : ∀ p ∈ cancelledL, isDecChar p = false := by decide

theorem closeLowL_not_dec : ∀ p ∈ closeLowL, isDecChar p = false := by decide

theorem hash_not_dec : isDecChar '#' = false := by decide

/-- Pattern 1 has the shared matcher shape. -/
theorem matcher1_shape : ∀ t md rp, matcher1 t = some (md, rp) →
    ∃ pre run suf q rest, md = pre ++ (run ++ suf) ∧ rp = q ++ run ∧
      pre ≠ [] ∧ (∀ c ∈ pre, isDecChar c = false) ∧
      (∀ c ∈ suf, isDecChar c = false) ∧ t = md ++ rest := by
  intro t md rp h
  unfold matcher1 at h
  split at h
  · exact absurd h (by simp)
  · rename_i u1 r1 heq1
    split at h
    · exact absurd h (by simp)
    · split at h
      · exact absurd h (by simp)
      · rename_i u2 r3 heq2
        split at h
        · exact absurd h (by simp)
        · split at h
          · exact absurd h (by simp)
          · rename_i g rest0 heq3
            simp only [Option.some.injEq, Prod.mk.injEq] at h
            obtain ⟨hmd, hrp⟩ := h
            obtain ⟨h0, run, hg, hh0, _, hgr⟩ := grpParse_eq heq3
            have e1 := (litCI_eq heq1).1
            have e2 := (litCI_eq heq2).1
            have hu1 : u1 ≠ [] := by
              have hl := (litCI_eq heq1).2.1
              intro hu
              rw [hu] at hl
              simp [manuallyL] at hl
            refine ⟨u1 ++ r1.takeWhile isWS ++ u2 ++ r3.takeWhile isWS ++ h0,
              run, [], closeSpL ++ h0, rest0, ?_, ?_, ?_, ?_, by simp, ?_⟩
            · rw [← hmd, hg]
              simp [List.append_assoc]
            · rw [← hrp, hg]
              simp [List.append_assoc]
            · cases u1 with
              | nil => exact absurd rfl hu1
              | cons a l => simp
            · intro c hc
              simp only [List.append_assoc, List.mem_append] at hc
              rcases hc with hc | hc | hc | hc | hc
              · exact litCI_not_dec manuallyL_not_dec heq1 c hc
              · exact tw_ws_not_dec c hc
              · exact litCI_not_dec cancelledL_not_dec heq2 c hc
              · exact tw_ws_not_dec c hc
              · rcases hh0 with rfl | rfl
                · simp at hc
                · simp at hc
                  rw [hc]
                  exact hash_not_dec
            · have hr3 : r3 = r3.takeWhile isWS ++ (g ++ rest0) := by
                conv_lhs => rw [← List.takeWhile_append_dropWhile (p := isWS)
                  (l := r3)]
                rw [hgr]
              have hr1 : r1 = r1.takeWhile isWS ++ (u2 ++ r3) := by
                conv_lhs => rw [← List.takeWhile_append_dropWhile (p := isWS)
                  (l := r1)]
                rw [e2]
              have ht : t = u1 ++ (r1.takeWhile isWS ++
                  (u2 ++ (r3.takeWhile isWS ++ (g ++ rest0)))) := by
                rw [e1]
                exact congrArg (fun z => u1 ++ z)
                  (hr1.trans (congrArg
                    (fun z => r1.takeWhile isWS ++ (u2 ++ z)) hr3))
              rw [ht, ← hmd]
              simp [List.append_assoc]

/-- Pattern 2 has the shared matcher shape. -/
theorem matcher2_shape : ∀ t md rp, matcher2 t = some (md, rp) →
    ∃ pre run suf q rest, md = pre ++ (run ++ suf) ∧ rp = q ++ run ∧
      pre ≠ [] ∧ (∀ c ∈ pre, isDecChar c = false) ∧
      (∀ c ∈ suf, isDecChar c = false) ∧ t = md ++ rest := by
  intro t md rp h
  unfold matcher2 at h
  split at h
  · rename_i r1
    split at h
    · exact absurd h (by simp)
    · split at h
      · exact absurd h (by simp)
      · split at h
        · exact absurd h (by simp)
        · rename_i u2 r4 heq2
          split at h
          · exact absurd h (by simp)
          · split at h
            · exact absurd h (by simp)
            · rename_i u3 r6 heq3
              simp only [Option.some.injEq, Prod.mk.injEq] at h
              obtain ⟨hmd, hrp⟩ := h
              have e2 := (litCI_eq heq2).1
              have e3 := (litCI_eq heq3).1
              refine ⟨['#'], r1.takeWhile isAlnumCI,
                (r1.dropWhile isAlnumCI).takeWhile isWS ++ u2 ++
                  r4.takeWhile isWS ++ u3,
                closeSpL ++ ['#'], r6, ?_, ?_, by simp, ?_, ?_, ?_⟩
              · rw [← hmd]
                simp [List.append_assoc]
              · rw [← hrp]
                simp [List.append_assoc]
              · intro c hc
                simp only [List.mem_singleton] at hc
                rw [hc]
                exact hash_not_dec
              · intro c hc
                simp only [List.append_assoc, List.mem_append] at hc
                rcases hc with hc | hc | hc | hc
                · exact tw_ws_not_dec c hc
                · exact litCI_not_dec manuallyL_not_dec heq2 c hc
                · exact tw_ws_not_dec c hc
                · exact litCI_not_dec cancelledL_not_dec heq3 c hc
              · have hr4 : r4 = r4.takeWhile isWS ++ (u3 ++ r6) := by
                  conv_lhs => rw [← List.takeWhile_append_dropWhile
                    (p := isWS) (l := r4)]
                  rw [e3]
                have hdA : r1.dropWhile isAlnumCI =
                    (r1.dropWhile isAlnumCI).takeWhile isWS ++
                      (u2 ++ (r4.takeWhile isWS ++ (u3 ++ r6))) := by
                  conv_lhs => rw [← List.takeWhile_append_dropWhile
                    (p := isWS) (l := r1.dropWhile isAlnumCI)]
                  rw [e2]
                  exact congrArg
                    (fun z => (r1.dropWhile isAlnumCI).takeWhile isWS ++
                      (u2 ++ z)) hr4
                have hr1 : r1 = r1.takeWhile isAlnumCI ++
                    ((r1.dropWhile isAlnumCI).takeWhile isWS ++
                      (u2 ++ (r4.takeWhile isWS ++ (u3 ++ r6)))) := by
                  conv_lhs => rw [← List.takeWhile_append_dropWhile
                    (p := isAlnumCI) (l := r1)]
                  exact congrArg (fun z => r1.takeWhile isAlnumCI ++ z) hdA
                rw [← hmd]
                rw [show ('#' :: r1 : List Char) = md ++ r6 from ?_]
                · rw [← hmd]
                · rw [← hmd]
                  simp only [List.cons_append, List.append_assoc]
                  exact congrArg (fun z => ('#' : Char) :: z)
                    (by simpa [List.append_assoc] using hr1)
  · exact absurd h (by simp)

/-- The substitution pattern of step 3 has the shared matcher shape. -/
theorem matcher3_shape : ∀ t md rp, matcher3 t = some (md, rp) →
    ∃ pre run suf q rest, md = pre ++ (run ++ suf) ∧ rp = q ++ run ∧
      pre ≠ [] ∧ (∀ c ∈ pre, isDecChar c = false) ∧
      (∀ c ∈ suf, isDecChar c = false) ∧ t = md ++ rest := by
  intro t md rp h
  unfold matcher3 at h
  split at h
  · exact absurd h (by simp)
  · rename_i u1 r1 heq1
    split at h
    · exact absurd h (by simp)
    · split at h
      · exact absurd h (by simp)
      · split at h
        · exact absurd h (by simp)
        · simp only [Option.some.injEq, Prod.mk.injEq] at h
          obtain ⟨hmd, hrp⟩ := h
          have e1 := (litCI_eq heq1).1
          have hu1 : u1 ≠ [] := by
            have hl := (litCI_eq heq1).2.1
            intro hu
            rw [hu] at hl
            simp [closeLowL] at hl
          refine ⟨u1 ++ r1.takeWhile isWS,
            (r1.dropWhile isWS).takeWhile isAlnumCI, [], closeHashL,
            (r1.dropWhile isWS).dropWhile isAlnumCI, ?_, ?_, ?_, ?_,
            by simp, ?_⟩
          · rw [← hmd]
            simp [List.append_assoc]
          · rw [← hrp]
          · cases u1 with
            | nil => exact absurd rfl hu1
            | cons a l => simp
          · intro c hc
            simp only [List.mem_append] at hc
            rcases hc with hc | hc
            · exact litCI_not_dec closeLowL_not_dec heq1 c hc
            · exact tw_ws_not_dec c hc
          · have hdw : r1.dropWhile isWS =
                (r1.dropWhile isWS).takeWhile isAlnumCI ++
                  (r1.dropWhile isWS).dropWhile isAlnumCI :=
              (List.takeWhile_append_dropWhile _ _).symm
            have hr1 : r1 = r1.takeWhile isWS ++
                ((r1.dropWhile isWS).takeWhile isAlnumCI ++
                  (r1.dropWhile isWS).dropWhile isAlnumCI) := by
              conv_lhs => rw [← List.takeWhile_append_dropWhile
                (p := isWS) (l := r1)]
              exact congrArg (fun z => r1.takeWhile isWS ++ z) hdw
            rw [e1, ← hmd]
            simp only [List.append_assoc]
            exact congrArg (fun z => u1 ++ z) hr1

theorem matcher1_MOK : MOK matcher1 := mkMOK _ matcher1_shape

theorem matcher2_MOK : MOK matcher2 := mkMOK _ matcher2_shape

theorem matcher3_MOK : MOK matcher3 := mkMOK _ matcher3_shape

theorem substrOf_of_prefixOf {s t : List Char} (h : PrefixOf s t) :
    SubstrOf s t := by
  obtain ⟨v, hv⟩ := h
  exact ⟨[], v, by simp [hv]⟩

/-- The scanner preserves every nonempty decimal prefix of its input as a
prefix of its output, for any sound matcher: a match never starts at a
decimal character, so the leading decimal run is copied unchanged. -/
theorem scanF_pres_front {m : List Char → Option (List Char × List Char)}
    (hM : MOK m) : ∀ f t s, t.length ≤ f → s ≠ [] → DecStr s →
    PrefixOf s t → PrefixOf s (scanF m f t) := by
  intro f
  induction f with
  | zero =>
    intro t s hf hs _ hp
    have ht : t = [] := List.length_eq_zero.mp (Nat.le_zero.mp hf)
    subst ht
    obtain ⟨v, hv⟩ := hp
    obtain ⟨rfl, -⟩ := List.append_eq_nil.mp hv.symm
    exact absurd rfl hs
  | succ f ih =>
    intro t s hf hs hdec hp
    cases t with
    | nil =>
      obtain ⟨v, hv⟩ := hp
      obtain ⟨rfl, -⟩ := List.append_eq_nil.mp hv.symm
      exact absurd rfl hs
    | cons c t2 =>
      obtain ⟨v, hv⟩ := hp
      cases s with
      | nil => exact absurd rfl hs
      | cons a s2 =>
        simp only [List.cons_append] at hv
        injection hv with h1 h2
        subst h1
        have hdc : isDecChar c = true := hdec c (List.mem_cons_self _ _)
        cases hm : m (c :: t2) with
        | some pr =>
          exfalso
          obtain ⟨md, rp⟩ := pr
          obtain ⟨⟨rest, hrest⟩, hmdne, hhd, -⟩ := hM _ _ _ hm
          cases md with
          | nil => exact hmdne rfl
          | cons d md2 =>
            simp only [List.cons_append] at hrest
            injection hrest with hd1 htl
            have hnd := hhd d rfl
            rw [← hd1] at hnd
            simp_all
        | none =>
          cases s2 with
          | nil => exact ⟨scanF m f t2, by simp [scanF, hm]⟩
          | cons b s3 =>
            have hf2 : t2.length ≤ f := by
              simp only [List.length_cons] at hf
              omega
            obtain ⟨w, hw⟩ := ih t2 (b :: s3) hf2 (by simp)
              (fun x hx => hdec x (List.mem_cons_of_mem _ hx)) ⟨v, h2⟩
            exact ⟨w, by simp [scanF, hm, hw]⟩

/-- The scanner preserves every nonempty decimal substring of its input
as a substring of its output, for any sound matcher. -/
theorem scanF_pres_substr {m : List Char → Option (List Char × List Char)}
    (hM : MOK m) : ∀ f t s, t.length ≤ f → s ≠ [] → DecStr s →
    SubstrOf s t → SubstrOf s (scanF m f t) := by
  intro f
  induction f with
  | zero =>
    intro t s hf hs _ hsub
    have ht : t = [] := List.length_eq_zero.mp (Nat.le_zero.mp hf)
    subst ht
    obtain ⟨u, v, hv⟩ := hsub
    obtain ⟨h1, -⟩ := List.append_eq_nil.mp hv.symm
    obtain ⟨-, rfl⟩ := List.append_eq_nil.mp h1
    exact absurd rfl hs
  | succ f ih =>
    intro t s hf hs hdec hsub
    cases t with
    | nil =>
      obtain ⟨u, v, hv⟩ := hsub
      obtain ⟨h1, -⟩ := List.append_eq_nil.mp hv.symm
      obtain ⟨-, rfl⟩ := List.append_eq_nil.mp h1
      exact absurd rfl hs
    | cons c t2 =>
      have hf2 : t2.length ≤ f := by
        simp only [List.length_cons] at hf
        omega
      cases hm : m (c :: t2) with
      | none =>
        rcases substrOf_cons_split hsub with hpre | hsub2
        · exact substrOf_of_prefixOf
            (scanF_pres_front hM (f + 1) (c :: t2) s hf hs hdec hpre)
        · obtain ⟨u, v, huv⟩ := ih t2 s hf2 hs hdec hsub2
          exact ⟨c :: u, v, by simp [scanF, hm, huv]⟩
      | some pr =>
        obtain ⟨md, rp⟩ := pr
        obtain ⟨⟨rest, hrest⟩, hmdne, -, hpres⟩ := hM _ _ _ hm
        cases md with
        | nil => exact absurd rfl hmdne
        | cons d md2 =>
          simp only [List.cons_append] at hrest
          injection hrest with hd1 hrest2
          have hdrop : t2.drop md2.length = rest := by
            rw [hrest2]
            exact List.drop_left md2 rest
          have hlrest : rest.length ≤ f := by
            have := congrArg List.length hrest2
            simp only [List.length_append] at this
            omega
          have hgoal : scanF m (f + 1) (c :: t2) =
              rp ++ scanF m f rest := by
            simp [scanF, hm, hdrop]
          rw [hgoal]
          have hsub2 : SubstrOf s ((d :: md2) ++ rest) := by
            rw [← hd1, List.cons_append, ← hrest2]
            exact hsub
          rcases substrOf_append_split hsub2 with h1 | h1 |
            ⟨s₁, s₂, hsp, h1ne, h2ne, hsuf, hpre2⟩
          · exact substrOf_append_left _ ((hpres s hs hdec).1 h1)
          · exact substrOf_append_right rp (ih rest s hlrest hs hdec h1)
          · have hdec1 : DecStr s₁ := fun x hx =>
              hdec x (by rw [hsp]; exact List.mem_append_left _ hx)
            have hdec2 : DecStr s₂ := fun x hx =>
              hdec x (by rw [hsp]; exact List.mem_append_right _ hx)
            obtain ⟨w, hw⟩ := (hpres s₁ h1ne hdec1).2 hsuf
            obtain ⟨z, hz⟩ := scanF_pres_front hM f rest s₂ hlrest h2ne
              hdec2 hpre2
            refine ⟨w, z, ?_⟩
            rw [hw, hz, hsp]
            simp [List.append_assoc]

/-- One re.sub pass preserves every nonempty decimal substring. -/
theorem scanSub_pres {m : List Char → Option (List Char × List Char)}
    (hM : MOK m) {t s : List Char} (hs : s ≠ []) (hdec : DecStr s)
    (h : SubstrOf s t) : SubstrOf s (scanSub m t) :=
  scanF_pres_substr hM t.length t s le_rfl hs hdec h

/-- The full substitution chain of process_message preserves every
nonempty decimal substring of the input text. -/
theorem cancelRewrite_pres {t s : List Char} (hs : s ≠ []) (hdec : DecStr s)
    (h : SubstrOf s t) : SubstrOf s (cancelRewrite t) := by
  unfold cancelRewrite
  have h1 := scanSub_pres matcher1_MOK hs hdec h
  have h2 := scanSub_pres matcher2_MOK hs hdec h1
  split
  · exact scanSub_pres matcher3_MOK hs hdec h2
  · exact h2

/-- Inversion of the handler: an emitted output means the text was
nonempty, carried the keyword, and the output is the rewritten text. -/
theorem handler_some_inv {t out : List Char}
    (h : handler (some t) = some out) :
    t ≠ [] ∧ hasLev t = true ∧ out = cancelRewrite t := by
  unfold handler process_message at h
  dsimp only at h
  by_cases ht : t = []
  · rw [if_pos ht] at h
    simp at h
  · rw [if_neg ht] at h
    by_cases hl : hasLev t = true
    · simp only [hl, if_true] at h
      by_cases hc : cancelRewrite t = []
      · simp [hc] at h
      · simp only [hc, if_neg, if_false, Option.some.injEq] at h
        exact ⟨ht, hl, h.symm⟩
    · simp only [Bool.not_eq_true] at hl
      simp [hl] at h

/-- Construction of the handler result: a nonempty keyword-bearing text
whose rewrite is nonempty is forwarded as its rewrite. -/
theorem handler_some_of {t : List Char} (ht : t ≠ [])
    (hl : hasLev t = true) (hc : cancelRewrite t ≠ []) :
    handler (some t) = some (cancelRewrite t) := by
  unfold handler process_message
  dsimp only
  rw [if_neg ht]
  simp [hl, hc]

/-- C1: the specified deduplication idempotence fails on the code.  A
nonempty keyword-bearing text produces an output, and processing the
byte-identical text a second time produces the same output again, not
nothing: the code keeps no memory of previously seen content, so no
second call is ever suppressed. -/
theorem c1_dedup_counterexample :
    runBatch [some "Buy with Leverage 50x now".toList,
        some "Buy with Leverage 50x now".toList] =
      [some "Buy with Leverage 50x now".toList,
        some "Buy with Leverage 50x now".toList] ∧
    (some "Buy with Leverage 50x now".toList : Option (List Char)) ≠
      none := by
  exact ⟨by decide, by decide⟩

/-- C1 amended: when a text produces an output, a second call with the
byte-identical text returns that same output rather than nothing, at any
later time: process_message and the handler keep no state between
calls. -/
theorem c1_dedup_amended (mt : Option (List Char)) (out : List Char)
    (h : handler mt = some out) :
    runBatch [mt, mt] = [some out, some out] := by
  simp [runBatch, h]

/-- Witness for the amended C1 at a concrete keyword-bearing text. -/
theorem c1_dedup_amended_witness :
    runBatch [some "Leverage 20x".toList, some "Leverage 20x".toList] =
      [some "Leverage 20x".toList, some "Leverage 20x".toList] :=
  c1_dedup_amended _ _ (by decide)

/-- C2: the specified malformed-signal drop fails on the code.  A text
containing the keyword leverage from which no signal fields are
extractable is forwarded verbatim, not dropped: the code performs no
field extraction at all. -/
theorem c2_malformed_counterexample :
    handler (some "Random chat about Leverage trading".toList) =
      some "Random chat about Leverage trading".toList ∧
    handler (some "Random chat about Leverage trading".toList) ≠ none := by
  exact ⟨by decide, by decide⟩

/-- C2 amended: a nonempty text containing the keyword leverage on which
no cancellation rewrite fires is forwarded verbatim; field extraction
never happens and a keyword-bearing message is never dropped. -/
theorem c2_malformed_amended (t : List Char) (ht : t ≠ [])
    (hl : hasLev t = true) (hr : cancelRewrite t = t) :
    handler (some t) = some t := by
  have := handler_some_of ht hl (by rw [hr]; exact ht)
  rw [hr] at this
  exact this

/-- Witness for the amended C2 at a concrete malformed signal text. -/
theorem c2_malformed_amended_witness :
    handler (some "Random chat about Leverage trading".toList) =
      some "Random chat about Leverage trading".toList :=
  c2_malformed_amended _ (by decide) (by decide) (by decide)

/-- C3: the specified cancellation output shape fails on the code.  On
the spec example input the output is not the bare lower-case close
command: the code rewrites in place with a capital C and keeps the rest
of the message. -/
theorem c3_cancel_shape_counterexample :
    handler
        (some "#BTCUSDT Manually Cancelled, was using Leverage 20x".toList) ≠
      some "/close #BTCUSDT".toList := by decide

/-- C3 amended: the cancellation rewrite is an in-place substitution,
not a bare lower-case close command.  On the example input the output is
the close command with a capital C followed by the rest of the message;
a hash mark is added when the matched ticker lacks one; the symbol keeps
its input spelling instead of being upper-cased; and the hashless
symbol-first form is not rewritten at all, since pattern 2 requires a
leading hash mark and pattern 1 requires a token after the phrase. -/
theorem c3_cancel_shape_amended :
    handler
        (some "#BTCUSDT Manually Cancelled, was using Leverage 20x".toList) =
      some "/Close #BTCUSDT, was using Leverage 20x".toList ∧
    handler (some "Manually Cancelled BTCUSDT and Leverage".toList) =
      some "/Close #BTCUSDT and Leverage".toList ∧
    handler (some "manually cancelled btcusdt leverage".toList) =
      some "/Close #btcusdt leverage".toList ∧
    handler (some "BTCUSDT Manually Cancelled, Leverage 5x".toList) =
      some "BTCUSDT Manually Cancelled, Leverage 5x".toList := by
  exact ⟨by decide, by decide, by decide, by decide⟩

/-- C4: the specified exclusive cancellation precedence fails on the
code.  On a text containing both the cancellation phrase and the keyword
leverage, the output is not the pure cancellation rendering: the
leverage content survives in the output, because the code has no
classification that lets one rule exclude the other. -/
theorem c4_precedence_counterexample :
    handler
        (some "#ETHUSDT Manually Cancelled, was using Leverage 9x".toList) ≠
      some "/close #ETHUSDT".toList ∧
    containsSub "leverage".toList
      ((cancelRewrite
        "#ETHUSDT Manually Cancelled, was using Leverage 9x".toList).map lc) =
      true := by
  exact ⟨by decide, by decide⟩

/-- C4 amended: the code has no classifier and no precedence rule.  For
every nonempty text, process_message applies the in-place cancellation
rewrite and computes the leverage keyword flag independently and both
unconditionally.  When a cancellation pattern fires in a text that also
contains leverage, the forwarded output starts with the close command
and still carries the leverage text; and when both phrases occur with no
ticker adjacent to the phrase, nothing is rewritten and the text is
forwarded verbatim. -/
theorem c4_precedence_amended :
    (∀ (c : Char) (t : List Char),
      process_message (some (c :: t)) =
        (some (cancelRewrite (c :: t)), hasLev (c :: t))) ∧
    handler
        (some "#ETHUSDT Manually Cancelled, was using Leverage 9x".toList) =
      some "/Close #ETHUSDT, was using Leverage 9x".toList ∧
    isPrefixL "/Close #ETHUSDT".toList
      "/Close #ETHUSDT, was using Leverage 9x".toList = true ∧
    containsSub "leverage".toList
      ("/Close #ETHUSDT, was using Leverage 9x".toList.map lc) = true ∧
    handler (some "Manually Cancelled, Leverage 10x".toList) =
      some "Manually Cancelled, Leverage 10x".toList := by
  refine ⟨?_, by decide, by decide, by decide, by decide⟩
  intro c t
  unfold process_message
  dsimp only
  rw [if_neg (List.cons_ne_nil c t)]

/-- C5: a text lacking both the keyword leverage and the phrase manually
cancelled, case-insensitively, produces no output. -/
theorem c5_irrelevant_gate (t : List Char)
    (h1 : containsSub "leverage".toList (t.map lc) = false)
    (_h2 : containsSub "manually cancelled".toList (t.map lc) = false) :
    handler (some t) = none := by
  unfold handler process_message
  dsimp only
  by_cases ht : t = []
  · rw [if_pos ht]
    rfl
  · rw [if_neg ht]
    have hl : hasLev t = false := by
      unfold hasLev leverageL
      exact h1
    simp [hl]

/-- Witness for C5 at a concrete irrelevant text. -/
theorem c5_irrelevant_gate_witness :
    containsSub "leverage".toList ("Good morning traders".toList.map lc) =
      false ∧
    containsSub "manually cancelled".toList
      ("Good morning traders".toList.map lc) = false ∧
    handler (some "Good morning traders".toList) = none :=
  ⟨by decide, by decide, c5_irrelevant_gate _ (by decide) (by decide)⟩

/-- C6: the specified open-signal template fails on the code.  On the
spec example input the output is the raw input text itself; it contains
no Action line at all, because the code performs no reformatting. -/
theorem c6_template_counterexample :
    handler (some
        "ETH/USDT LONG\nLeverage 30x\nEntries 4089\nTarget 1 4150\nSL 4020".toList) =
      some
        "ETH/USDT LONG\nLeverage 30x\nEntries 4089\nTarget 1 4150\nSL 4020".toList ∧
    containsSub "action: long".toList
      ("ETH/USDT LONG\nLeverage 30x\nEntries 4089\nTarget 1 4150\nSL 4020".toList.map
        lc) = false := by
  exact ⟨by decide, by decide⟩

/-- C6 amended: a keyword-bearing text on which no cancellation rewrite
fires is forwarded as the raw input text, through no template; on the
spec example input the output equals the input byte for byte. -/
theorem c6_template_amended :
    handler (some
        "ETH/USDT LONG\nLeverage 30x\nEntries 4089\nTarget 1 4150\nSL 4020".toList) =
      some
        "ETH/USDT LONG\nLeverage 30x\nEntries 4089\nTarget 1 4150\nSL 4020".toList := by
  decide

/-- C7: verbatim value pass-through.  Every nonempty string of digits
and dots occurring contiguously in the input text also occurs
contiguously, byte for byte, in any output the handler emits for that
text: the rewrite chain never parses, rounds or reformats decimal
values. -/
theorem c7_values_verbatim (t out s : List Char)
    (hout : handler (some t) = some out) (hs : s ≠ [])
    (hdec : DecStr s) (hsub : SubstrOf s t) : SubstrOf s out := by
  obtain ⟨-, -, ho⟩ := handler_some_inv hout
  rw [ho]
  exact cancelRewrite_pres hs hdec hsub

/-- Witness for C7: the decimal value 110200.50 straddles a cancellation
rewrite and still reaches the output unchanged. -/
theorem c7_values_verbatim_witness :
    handler (some "Manually Cancelled 110200.50 Leverage".toList) =
      some "/Close #110200.50 Leverage".toList ∧
    DecStr "110200.50".toList ∧
    SubstrOf "110200.50".toList
      "Manually Cancelled 110200.50 Leverage".toList ∧
    SubstrOf "110200.50".toList "/Close #110200.50 Leverage".toList := by
  refine ⟨by decide, by unfold DecStr; decide,
    ⟨"Manually Cancelled ".toList, " Leverage".toList, by decide⟩, ?_⟩
  exact c7_values_verbatim "Manually Cancelled 110200.50 Leverage".toList
    "/Close #110200.50 Leverage".toList "110200.50".toList (by decide)
    (by decide) (by unfold DecStr; decide)
    ⟨"Manually Cancelled ".toList, " Leverage".toList, by decide⟩

/-- C8: totality.  Every input, including an absent or empty text body,
yields a well-defined result: either nothing, or the rewritten text of a
nonempty keyword-bearing message; there is no error outcome. -/
theorem c8_totality (mt : Option (List Char)) :
    handler mt = none ∨
      ∃ t, mt = some t ∧ handler mt = some (cancelRewrite t) ∧
        hasLev t = true := by
  cases mt with
  | none => exact Or.inl rfl
  | some t =>
    by_cases ht : t = []
    · subst ht
      exact Or.inl rfl
    · by_cases hl : hasLev t = true
      · by_cases hc : cancelRewrite t = []
        · refine Or.inl ?_
          unfold handler process_message
          dsimp only
          rw [if_neg ht]
          simp [hl, hc]
        · exact Or.inr ⟨t, rfl, handler_some_of ht hl hc, hl⟩
      · refine Or.inl ?_
        unfold handler process_message
        dsimp only
        rw [if_neg ht]
        simp only [Bool.not_eq_true] at hl
        simp [hl]

/-- C9: determinism.  The result for a message does not depend on the
history of previously processed messages: the processing functions read
no hidden mutable state, so identical inputs give identical outputs in
any batch. -/
theorem c9_determinism (h₁ h₂ : List (Option (List Char)))
    (mt : Option (List Char)) :
    (runBatch (h₁ ++ [mt])).getLast? = (runBatch (h₂ ++ [mt])).getLast? := by
  simp [runBatch]

/-- C10: an absent text body and an empty text body both make
process_message return the pair of no text and a false keyword flag, and
the handler emits nothing for either. -/
theorem c10_empty_input :
    process_message none = (none, false) ∧
    process_message (some []) = (none, false) ∧
    handler none = none ∧ handler (some []) = none := by
  exact ⟨rfl, by decide, rfl, by decide⟩

end Bot
